import Mathlib

/-!
Verification of the zernipax backend shim (`zernipax/backend.py`).

The module probes for JAX at load time, falls back to NumPy when JAX is not
installed, and provides a uniform set of control-flow primitives.  We embed
the fallback (NumPy) implementations and the module-level probe logic as
executable Lean definitions, modelling arrays as lists of integers.
-/

namespace Zernipax

/-! ## Basic array helpers -/

/-- NumPy `np.clip(x, lo, hi)`: equivalent to `min(hi, max(x, lo))`. -/
def npClip (x lo hi : Int) : Int := min (max x lo) hi

/-- NumPy `np.arange(lower, upper)` over integers: the list
`[lower, lower+1, ..., upper-1]` (empty when `upper <= lower`). -/
def npArange (lower upper : Int) : List Int :=
  (List.range (upper - lower).toNat).map (fun k => lower + (k : Int))

/-! ## Fallback control-flow shims (the `else` branch of `backend.py`) -/

/-- Fallback `sign(x)`: `np.where(x == 0, 1, np.sign(x))`, elementwise over a
1-d array.  The JAX branch defines the identical expression with `jnp`. -/
def sign (x : List Int) : List Int :=
  x.map (fun v => if v = 0 then 1 else Int.sign v)

/-- Fallback `cond(pred, true_fun, false_fun, *operand)`:
`if pred: return true_fun(*operand) else: return false_fun(*operand)`. -/
def cond {α β : Type} (pred : Bool) (true_fun false_fun : α → β) (operand : α) : β :=
  if pred then true_fun operand else false_fun operand

/-- Fallback `fori_loop(lower, upper, body_fun, init_val)`:
`val = init_val; for i in np.arange(lower, upper): val = body_fun(i, val); return val`. -/
def fori_loop {α : Type} (lower upper : Int) (body_fun : Int → α → α) (init_val : α) : α :=
  (npArange lower upper).foldl (fun val i => body_fun i val) init_val

/-- Fallback `switch(index, branches, operand)`:
`index = np.clip(index, 0, len(branches) - 1); return branches[index](operand)`.
The list of branches must be non-empty for the Python indexing to succeed. -/
def switch {α β : Type} (index : Int) (branches : List (α → β))
    (h : branches ≠ []) (operand : α) : β :=
  branches.get ⟨(npClip index 0 ((branches.length : Int) - 1)).toNat, by
    have hpos : 0 < branches.length := List.length_pos.mpr h
    have h1 : npClip index 0 ((branches.length : Int) - 1) ≤ (branches.length : Int) - 1 :=
      min_le_right _ _
    omega⟩ operand

/-- `put(arr, inds, vals)`: `arr[inds] = vals; return arr`.  NumPy fancy-index
assignment writes each `(inds[k], vals[k])` pair in order, so it is the
left fold of single-position updates.  The JAX branch performs the same
scatter, either in place on a NumPy array or via `arr.at[inds].set(vals)`. -/
def put {α : Type} (arr : List α) (inds : List Nat) (vals : List α) : List α :=
  (inds.zip vals).foldl (fun a p => a.set p.1 p.2) arr

/-! ## Fallback vmap: `np.stack([fun(x) for x in inputs], axis=out_axes)`.
Outputs of `fun` are modelled as 1-d integer arrays, so the legal stacking
axes are 0 and 1. -/

/-- Transpose of a list-of-rows matrix, reading column `j` for every
`j < ` length of the first row (NumPy stacking requires uniform shapes). -/
def transposeM (a : List (List Int)) : List (List Int) :=
  (List.range ((a.headD []).length)).map (fun j => a.map (fun row => row.getD j 0))

/-- `np.stack(rows, axis)` for 1-d rows: axis 0 keeps the rows, axis 1
interleaves them columnwise (the transpose). -/
def npStack (axis : Nat) (rows : List (List Int)) : List (List Int) :=
  if axis = 0 then rows else transposeM rows

/-- Fallback `vmap(fun, out_axes)`: returns
`fun_vmap = lambda fun_inputs: np.stack([fun(x) for x in fun_inputs], axis=out_axes)`. -/
def vmap {α : Type} (f : α → List Int) (out_axes : Nat) : List α → List (List Int) :=
  fun fun_inputs => npStack out_axes (fun_inputs.map f)

/-! ## Fallback decorators (lines 159-161): all identities on the function. -/

/-- Fallback `jit = lambda func, *args, **kwargs: func`. -/
def jit_fallback {α β γ : Type} (func : α) (args : List β) (kwargs : List (String × γ)) : α :=
  func

/-- Fallback `custom_jvp_with_jit = lambda func, *args, **kwargs: func`. -/
def custom_jvp_with_jit_fallback {α β γ : Type} (func : α) (args : List β)
    (kwargs : List (String × γ)) : α :=
  func

/-- Fallback `execute_on_cpu = lambda func: func`. -/
def execute_on_cpu_fallback {α : Type} (func : α) : α := func

/-! ## Module-level backend probe (lines 11-48) -/

/-- Execution target selected through the configuration collaborator. -/
inductive DeviceKind : Type
  | cpu
  | gpu
deriving DecidableEq, Repr

/-- Which array library the module name `jnp` is bound to after the probe. -/
inductive BackendKind : Type
  | jaxNumpy
  | numpy
deriving DecidableEq, Repr

/-- Outcome of importing JAX in the `try` block: the module was found
(carrying the number of GPU devices JAX detects), a `ModuleNotFoundError`
was raised, or some other exception (identified abstractly) was raised. -/
inductive ImportOutcome : Type
  | success (gpuCount : Nat)
  | moduleNotFound
  | otherError (e : Nat)
deriving DecidableEq, Repr

/-- Module state produced by a completed probe: the binding of `jnp`, the
`use_jax` flag, the configured device, and the warnings emitted. -/
structure BackendState : Type where
  jnp : BackendKind
  use_jax : Bool
  device : DeviceKind
  warningsEmitted : List String
deriving DecidableEq, Repr

/-- Warning text of the GPU soft-check (lines 23-26). -/
def gpuWarning : String :=
  "JAX failed to detect GPU, are you sure you installed JAX with GPU support?"

/-- Warning text of the fallback downgrade (line 42). -/
def jaxLoadWarning : String := "Failed to load JAX"

/-- The module-level `try/except ModuleNotFoundError` probe (lines 13-43).
On a successful import the GPU soft-check may downgrade the device to CPU
with a warning; on `ModuleNotFoundError` the backend is downgraded to NumPy
with a warning; any other exception propagates uncaught. -/
def backendProbe (cfgKind : DeviceKind) (outcome : ImportOutcome) :
    Except Nat BackendState :=
  match outcome with
  | .success gpuCount =>
    if cfgKind = DeviceKind.gpu ∧ gpuCount = 0 then
      Except.ok ⟨BackendKind.jaxNumpy, true, DeviceKind.cpu, [gpuWarning]⟩
    else
      Except.ok ⟨BackendKind.jaxNumpy, true, cfgKind, []⟩
  | .moduleNotFound =>
    Except.ok ⟨BackendKind.numpy, false, DeviceKind.cpu, [jaxLoadWarning]⟩
  | .otherError e => Except.error e

/-! ## The custom derivative rule registered by `custom_jvp_with_jit`
(JAX branch, lines 107-134).  The wrapped `func` maps three 1-d arrays and a
static integer argument to a 2-d array; `dummy` is `func` itself, so the rule
body collapses to two evaluations of `func`. -/

/-- Matrices as lists of rows of integers. -/
abbrev Mat : Type := List (List Int)

/-- NumPy broadcast product `a * v` of a 2-d array with a 1-d array:
each row is multiplied elementwise by `v`. -/
def mulRowB (a : Mat) (v : List Int) : Mat :=
  a.map (fun row => List.zipWith (fun p q => p * q) row v)

/-- NumPy broadcast sum `a + v` of a 2-d array with a 1-d array:
`v` is added elementwise to each row. -/
def addRowB (a : Mat) (v : List Int) : Mat :=
  a.map (fun row => List.zipWith (fun p q => p + q) row v)

/-- NumPy scalar product `c * v` of a scalar with a 1-d array. -/
def scalMul (c : Int) (v : List Int) : List Int := v.map (fun z => c * z)

/-- The jvp rule `_dummy_jvp(nondiff_dr, x, xdot)` registered via
`dummy.defjvp`:
`(r, l, m) = x; (rdot, ldot, mdot) = xdot;`
`f = dummy(r, l, m, nondiff_dr); df = dummy(r, l, m, nondiff_dr + 1);`
`return f, (df.T * rdot).T + 0 * ldot + 0 * mdot`. -/
def dummy_jvp (func : List Int → List Int → List Int → Int → Mat) (nondiff_dr : Int)
    (x : List Int × List Int × List Int) (xdot : List Int × List Int × List Int) :
    Mat × Mat :=
  match x, xdot with
  | (r, l, m), (rdot, ldot, mdot) =>
    let f := func r l m nondiff_dr
    let df := func r l m (nondiff_dr + 1)
    (f, addRowB (addRowB (transposeM (mulRowB (transposeM df) rdot))
          (scalMul 0 ldot)) (scalMul 0 mdot))

/-- Sample wrapped function of the `custom_jvp_with_jit` shape, used to
instantiate the derivative-rule theorem concretely. -/
def sampleFunc : List Int → List Int → List Int → Int → Mat :=
  fun _ _ _ dr => [[dr, 2 * dr]]

end Zernipax

namespace Zernipax

/-! ## Theorems -/

/-- C2: for every input array, the sign shim returns `+1` at every position
holding a non-negative value and `-1` at every position holding a negative
value; in particular a `0` entry yields `+1`, not `0`. -/
theorem sign_spec (x : List Int) :
    sign x = x.map (fun v => if 0 ≤ v then 1 else -1) := by
  unfold sign
  apply List.map_congr_left
  intro v _
  by_cases h0 : v = 0
  · subst h0; simp
  · simp only [h0, if_false]
    rcases lt_trichotomy v 0 with hlt | heq | hgt
    · rw [Int.sign_eq_neg_one_of_neg hlt, if_neg (by omega)]
    · exact absurd heq h0
    · rw [Int.sign_eq_one_of_pos hgt, if_pos (by omega)]

/-- C3: the fallback cond shim applies the true branch to the operand when
the predicate is true, and the false branch when it is false. -/
theorem cond_spec {α β : Type} (true_fun false_fun : α → β) (operand : α) :
    cond true true_fun false_fun operand = true_fun operand ∧
    cond false true_fun false_fun operand = false_fun operand :=
  ⟨rfl, rfl⟩

/-- C6: the fallback fori_loop shim over the empty range `lower == upper`
returns the initial value unchanged. -/
theorem fori_loop_empty {α : Type} (lower : Int) (body_fun : Int → α → α) (init_val : α) :
    fori_loop lower lower body_fun init_val = init_val := by
  unfold fori_loop npArange
  simp

/-- C10: in the NumPy fallback branch the decorators `jit`,
`custom_jvp_with_jit` and `execute_on_cpu` all return their function
argument unchanged, whatever extra arguments are supplied. -/
theorem fallback_decorators_identity {α β γ : Type} (func : α) (args : List β)
    (kwargs : List (String × γ)) :
    jit_fallback func args kwargs = func ∧
    custom_jvp_with_jit_fallback func args kwargs = func ∧
    execute_on_cpu_fallback func = func :=
  ⟨rfl, rfl, rfl⟩

/-- C1: the fallback switch shim clamps any integer index into
`[0, branch-count-1]` and dispatches to the clamped branch; in particular
index `-1` dispatches to branch `0` and index `branch-count` dispatches to
the last branch. -/
theorem switch_clamp_dispatch {α β : Type} (index : Int) (branches : List (α → β))
    (h : branches ≠ []) (operand : α) :
    (∃ j : Fin branches.length,
        (j : Int) = npClip index 0 ((branches.length : Int) - 1) ∧
        switch index branches h operand = branches.get j operand) ∧
    switch (-1) branches h operand =
      branches.get ⟨0, List.length_pos.mpr h⟩ operand ∧
    switch (branches.length : Int) branches h operand =
      branches.get ⟨branches.length - 1, by
        have := List.length_pos.mpr h; omega⟩ operand := by
  have hpos : 0 < branches.length := List.length_pos.mpr h
  have hclip_nonneg : ∀ y : Int, 0 ≤ npClip y 0 ((branches.length : Int) - 1) := by
    intro y
    unfold npClip
    exact le_min (le_max_right y 0) (by omega)
  have hget : ∀ (y : Int) (k : Nat) (hk : k < branches.length),
      (npClip y 0 ((branches.length : Int) - 1)).toNat = k →
      switch y branches h operand = branches.get ⟨k, hk⟩ operand := by
    intro y k hk hval
    unfold switch
    exact congrFun (congrArg branches.get (Fin.ext hval)) operand
  refine ⟨?_, ?_, ?_⟩
  · refine ⟨⟨(npClip index 0 ((branches.length : Int) - 1)).toNat, ?_⟩, ?_, rfl⟩
    · have h1 : npClip index 0 ((branches.length : Int) - 1) ≤ (branches.length : Int) - 1 :=
        min_le_right _ _
      omega
    · exact Int.toNat_of_nonneg (hclip_nonneg index)
  · refine hget (-1) 0 hpos ?_
    have : npClip (-1) 0 ((branches.length : Int) - 1) = 0 := by
      unfold npClip
      rw [max_eq_right (by omega : (-1 : Int) ≤ 0)]
      exact min_eq_left (by omega)
    rw [this]; rfl
  · refine hget (branches.length : Int) (branches.length - 1) (by omega) ?_
    have : npClip (branches.length : Int) 0 ((branches.length : Int) - 1) =
        (branches.length : Int) - 1 := by
      unfold npClip
      rw [max_eq_left (by omega : (0 : Int) ≤ (branches.length : Int))]
      exact min_eq_right (by omega)
    rw [this]; omega

/-- Concrete instantiation of the switch clamping theorem: two branches,
index `-1` dispatches to branch `0`. -/
theorem switch_clamp_dispatch_witness :
    switch (-1) [fun z : Int => z + 1, fun z : Int => z * 2]
      (List.cons_ne_nil _ _) 5 = 6 := by
  have h := (switch_clamp_dispatch (-1)
    [fun z : Int => z + 1, fun z : Int => z * 2] (List.cons_ne_nil _ _) 5).2.1
  simpa using h

/-- C8: the module-level probe handles exactly one failure: on
`ModuleNotFoundError` it downgrades to the NumPy fallback (`jnp` bound to
numpy, `use_jax` false, device cpu) and emits a user-visible warning; any
other exception from the probe propagates unhandled. -/
theorem probe_module_not_found (cfgKind : DeviceKind) (e : Nat) :
    backendProbe cfgKind ImportOutcome.moduleNotFound =
      Except.ok ⟨BackendKind.numpy, false, DeviceKind.cpu, [jaxLoadWarning]⟩ ∧
    backendProbe cfgKind (ImportOutcome.otherError e) = Except.error e :=
  ⟨rfl, rfl⟩

/-- C9: when gpu was configured but JAX detects zero GPU devices the probe
warns and downgrades the device to cpu without failing; when a GPU is
detected or gpu was not requested the device selection is unchanged. -/
theorem probe_gpu_softcheck (cfgKind : DeviceKind) (g : Nat) :
    backendProbe DeviceKind.gpu (ImportOutcome.success 0) =
      Except.ok ⟨BackendKind.jaxNumpy, true, DeviceKind.cpu, [gpuWarning]⟩ ∧
    (0 < g → backendProbe cfgKind (ImportOutcome.success g) =
      Except.ok ⟨BackendKind.jaxNumpy, true, cfgKind, []⟩) ∧
    backendProbe DeviceKind.cpu (ImportOutcome.success g) =
      Except.ok ⟨BackendKind.jaxNumpy, true, DeviceKind.cpu, []⟩ := by
  refine ⟨by simp [backendProbe], ?_, by simp [backendProbe]⟩
  intro hg
  simp only [backendProbe]
  rw [if_neg]
  rintro ⟨-, h0⟩
  omega

/-- Concrete instantiation of the GPU soft-check theorem: with one GPU
detected, a gpu request keeps the gpu device. -/
theorem probe_gpu_softcheck_witness :
    0 < 1 ∧
    backendProbe DeviceKind.gpu (ImportOutcome.success 1) =
      Except.ok ⟨BackendKind.jaxNumpy, true, DeviceKind.gpu, []⟩ :=
  ⟨by decide, (probe_gpu_softcheck DeviceKind.gpu 1).2.1 (by decide)⟩

/-! ### Helper lemmas for `put` -/

lemma set_getD_ne {α : Type} (l : List α) (i j : Nat) (v d : α) (h : i ≠ j) :
    (l.set i v).getD j d = l.getD j d := by
  induction l generalizing i j with
  | nil => simp
  | cons a t ih =>
    cases i with
    | zero =>
      cases j with
      | zero => exact absurd rfl h
      | succ j => simp [List.set]
    | succ i =>
      cases j with
      | zero => simp [List.set]
      | succ j =>
        simp only [List.set, List.getD_cons_succ]
        exact ih i j (by omega)

lemma set_getD_eq {α : Type} (l : List α) (i : Nat) (v d : α) (h : i < l.length) :
    (l.set i v).getD i d = v := by
  induction l generalizing i with
  | nil => simp at h
  | cons a t ih =>
    cases i with
    | zero => simp [List.set]
    | succ i =>
      simp only [List.set, List.getD_cons_succ]
      exact ih i (by simpa using h)

/-- C4: for distinct in-bounds indices and matching values, `put` returns the
input array with positions `inds` overwritten by `vals`, has the same length,
and leaves every position outside `inds` unchanged.  Both the JAX branch
(in-place fancy indexing or `arr.at[inds].set(vals)`) and the NumPy fallback
perform this scatter. -/
theorem put_spec {α : Type} (d : α) (inds : List Nat) (vals : List α) (arr : List α)
    (hnd : inds.Nodup) (hlen : inds.length = vals.length)
    (hbound : ∀ i ∈ inds, i < arr.length) :
    (put arr inds vals).length = arr.length ∧
    (∀ k, k < inds.length → (put arr inds vals).getD (inds.getD k 0) d = vals.getD k d) ∧
    (∀ j, j ∉ inds → (put arr inds vals).getD j d = arr.getD j d) := by
  induction inds generalizing vals arr with
  | nil =>
    refine ⟨rfl, ?_, fun j _ => rfl⟩
    intro k hk
    simp at hk
  | cons i t ih =>
    cases vals with
    | nil => simp at hlen
    | cons v w =>
      have hstep : put arr (i :: t) (v :: w) = put (arr.set i v) t w := rfl
      have hnd_t : t.Nodup := (List.nodup_cons.mp hnd).2
      have hi_not : i ∉ t := (List.nodup_cons.mp hnd).1
      have hlen_t : t.length = w.length := by simpa using hlen
      have hbound_t : ∀ i2 ∈ t, i2 < (arr.set i v).length := by
        intro i2 hi2
        rw [List.length_set]
        exact hbound i2 (List.mem_cons_of_mem _ hi2)
      obtain ⟨ihlen, ihover, ihframe⟩ := ih w (arr.set i v) hnd_t hlen_t hbound_t
      refine ⟨?_, ?_, ?_⟩
      · rw [hstep, ihlen, List.length_set]
      · intro k hk
        cases k with
        | zero =>
          rw [hstep]
          simp only [List.getD_cons_zero]
          rw [ihframe i hi_not]
          exact set_getD_eq arr i v d (hbound i (List.mem_cons_self _ _))
        | succ k =>
          rw [hstep]
          simp only [List.getD_cons_succ]
          exact ihover k (by simpa using hk)
      · intro j hj
        have hj_ne : j ≠ i := fun hji => hj (hji ▸ List.mem_cons_self _ _)
        have hj_t : j ∉ t := fun hjt => hj (List.mem_cons_of_mem _ hjt)
        rw [hstep, ihframe j hj_t]
        exact set_getD_ne arr i j v d (fun hij => hj_ne hij.symm)

/-! ### Helper lemmas for `vmap` -/

lemma getD_map_lt {α β : Type} (g : α → β) (l : List α) (i : Nat) (d : β)
    (h : i < l.length) :
    (l.map g).getD i d = g (l.get ⟨i, h⟩) := by
  have h2 : i < (l.map g).length := by simpa using h
  rw [List.getD_eq_getElem (l.map g) d h2, List.getElem_map]
  rfl

lemma range_map_getD (l : List Int) :
    (List.range l.length).map (fun j => l.getD j 0) = l := by
  induction l with
  | nil => simp
  | cons a t ih =>
    rw [List.length_cons, List.range_succ_eq_map, List.map_cons, List.map_map]
    simp only [Function.comp_def, Nat.succ_eq_add_one, List.getD_cons_succ,
      List.getD_cons_zero]
    rw [ih]

lemma transposeM_length (a : List (List Int)) :
    (transposeM a).length = (a.headD []).length := by
  simp [transposeM]

/-- C5: the fallback vmap shim on a non-empty sequence of `n` inputs whose
outputs all have length `m` returns a stacked array whose stacking axis has
length `n` and whose `i`-th slice along that axis equals `f` applied to the
`i`-th input: for the default `out_axes = 0` the result has `n` rows and row
`i` is `f` of input `i`; for `out_axes = 1` the result has `m` rows of
length `n` each, and column `i` is `f` of input `i`. -/
theorem vmap_spec {α : Type} (f : α → List Int) (inputs : List α) (m : Nat)
    (hm : ∀ x ∈ inputs, (f x).length = m) (hne : inputs ≠ []) :
    ((vmap f 0 inputs).length = inputs.length ∧
      ∀ i, (hi : i < inputs.length) →
        (vmap f 0 inputs).getD i [] = f (inputs.get ⟨i, hi⟩)) ∧
    ((vmap f 1 inputs).length = m ∧
      (∀ row ∈ vmap f 1 inputs, row.length = inputs.length) ∧
      ∀ i, (hi : i < inputs.length) →
        (vmap f 1 inputs).map (fun row => row.getD i 0) = f (inputs.get ⟨i, hi⟩)) := by
  have hv0 : vmap f 0 inputs = inputs.map f := rfl
  have hv1 : vmap f 1 inputs = transposeM (inputs.map f) := rfl
  have hhead : ((inputs.map f).headD []).length = m := by
    obtain ⟨x, t, hxt⟩ := List.exists_cons_of_ne_nil hne
    subst hxt
    simpa using hm x (List.mem_cons_self _ _)
  refine ⟨⟨by simp [hv0], ?_⟩, ?_, ?_, ?_⟩
  · intro i hi
    rw [hv0]
    exact getD_map_lt f inputs i [] hi
  · rw [hv1, transposeM_length, hhead]
  · intro row hrow
    rw [hv1] at hrow
    simp only [transposeM, List.mem_map] at hrow
    obtain ⟨j, -, rfl⟩ := hrow
    simp
  · intro i hi
    rw [hv1]
    unfold transposeM
    rw [List.map_map]
    have hlen_i : (f (inputs.get ⟨i, hi⟩)).length = m :=
      hm _ (List.get_mem inputs i hi)
    have hcol : ∀ j ∈ List.range ((inputs.map f).headD []).length,
        ((fun row => row.getD i 0) ∘ fun j => (inputs.map f).map (fun r => r.getD j 0)) j =
          (f (inputs.get ⟨i, hi⟩)).getD j 0 := by
      intro j _
      simp only [Function.comp_def]
      rw [getD_map_lt (fun r => r.getD j 0) (inputs.map f) i 0 (by simpa using hi)]
      have : (inputs.map f).get ⟨i, by simpa using hi⟩ = f (inputs.get ⟨i, hi⟩) := by
        rw [List.get_eq_getElem, List.getElem_map]
        rfl
      rw [this]
    rw [List.map_congr_left hcol, hhead, ← hlen_i]
    exact range_map_getD _

/-- Concrete instantiation of the vmap theorem: stacking along axis 1, the
column at index 1 is the function applied to the second input. -/
theorem vmap_spec_witness :
    ((∀ x ∈ ([1, 2, 3] : List Int), ((fun z : Int => [z, z * 10]) x).length = 2) ∧
      ([1, 2, 3] : List Int) ≠ []) ∧
    (vmap (fun z : Int => [z, z * 10]) 1 [1, 2, 3]).map (fun row => row.getD 1 0) =
      [2, 20] := by
  refine ⟨⟨by decide, by decide⟩, ?_⟩
  have h := ((vmap_spec (fun z : Int => [z, z * 10]) [1, 2, 3] 2
    (by decide) (by decide)).2.2.2) 1 (by decide)
  simpa using h

/-- Concrete instantiation of the put theorem: writing positions 2 and 0 of
a three-element array overwrites them and leaves position 1 unchanged. -/
theorem put_spec_witness :
    (([2, 0] : List Nat).Nodup ∧ ([2, 0] : List Nat).length = [7, 8].length ∧
      ∀ i ∈ ([2, 0] : List Nat), i < ([10, 20, 30] : List Int).length) ∧
    (put [10, 20, 30] [2, 0] ([7, 8] : List Int)).getD 1 0 = 20 :=
  ⟨⟨by decide, by decide, by decide⟩,
    (put_spec 0 [2, 0] [7, 8] [10, 20, 30] (by decide) (by decide) (by decide)).2.2
      1 (by decide)⟩

/-! ### Helper lemmas for the custom derivative rule -/

lemma zipWith_add_scal0 (row v : List Int) (h : row.length ≤ v.length) :
    List.zipWith (fun p q => p + q) row (scalMul 0 v) = row := by
  induction row generalizing v with
  | nil => simp
  | cons a t ih =>
    cases v with
    | nil => simp at h
    | cons b w =>
      have ht := ih w (by simpa using h)
      simp only [scalMul, List.map_cons, List.zipWith_cons_cons] at ht ⊢
      rw [ht]
      simp

lemma mem_transposeM_length (a : List (List Int)) (row : List Int)
    (h : row ∈ transposeM a) : row.length = a.length := by
  simp only [transposeM, List.mem_map] at h
  obtain ⟨j, -, rfl⟩ := h
  simp

lemma addRowB_scal0 (a : Mat) (v : List Int) (h : ∀ row ∈ a, row.length ≤ v.length) :
    addRowB a (scalMul 0 v) = a := by
  unfold addRowB
  conv_rhs => rw [← List.map_id a]
  exact List.map_congr_left (fun row hrow => zipWith_add_scal0 row v (h row hrow))

/-- C7: the derivative rule registered by `custom_jvp_with_jit` returns the
primal `func(r, l, m, dr)` together with the tangent
`(func(r, l, m, dr + 1).T * rdot).T`, with zero contribution from the
tangents `ldot` and `mdot` (the terms `0 * ldot` and `0 * mdot` vanish). -/
theorem custom_jvp_rule_spec (func : List Int → List Int → List Int → Int → Mat)
    (dr : Int) (r l m rdot ldot mdot : List Int)
    (hl : ldot.length = ((func r l m (dr + 1)).headD []).length)
    (hmd : mdot.length = ((func r l m (dr + 1)).headD []).length) :
    dummy_jvp func dr (r, l, m) (rdot, ldot, mdot) =
      (func r l m dr, transposeM (mulRowB (transposeM (func r l m (dr + 1))) rdot)) := by
  have hMl : (mulRowB (transposeM (func r l m (dr + 1))) rdot).length =
      ((func r l m (dr + 1)).headD []).length := by
    simp [mulRowB, transposeM]
  have hT : ∀ row ∈ transposeM (mulRowB (transposeM (func r l m (dr + 1))) rdot),
      row.length ≤ ldot.length := by
    intro row hrow
    have h1 := mem_transposeM_length _ row hrow
    omega
  have hT2 : ∀ row ∈ transposeM (mulRowB (transposeM (func r l m (dr + 1))) rdot),
      row.length ≤ mdot.length := by
    intro row hrow
    have h1 := mem_transposeM_length _ row hrow
    omega
  have e1 : addRowB (transposeM (mulRowB (transposeM (func r l m (dr + 1))) rdot))
      (scalMul 0 ldot) =
      transposeM (mulRowB (transposeM (func r l m (dr + 1))) rdot) :=
    addRowB_scal0 _ _ hT
  have e2 : addRowB (transposeM (mulRowB (transposeM (func r l m (dr + 1))) rdot))
      (scalMul 0 mdot) =
      transposeM (mulRowB (transposeM (func r l m (dr + 1))) rdot) :=
    addRowB_scal0 _ _ hT2
  simp only [dummy_jvp]
  rw [e1, e2]

/-- Concrete instantiation of the derivative-rule theorem at a sample
function with matching tangent shapes. -/
theorem custom_jvp_rule_spec_witness :
    (([1, 2] : List Int).length = ((sampleFunc [1] [0] [0] (3 + 1)).headD []).length ∧
      ([3, 4] : List Int).length = ((sampleFunc [1] [0] [0] (3 + 1)).headD []).length) ∧
    dummy_jvp sampleFunc 3 ([1], [0], [0]) ([5], [1, 2], [3, 4]) =
      (sampleFunc [1] [0] [0] 3,
        transposeM (mulRowB (transposeM (sampleFunc [1] [0] [0] (3 + 1))) [5])) :=
  ⟨⟨by decide, by decide⟩,
    custom_jvp_rule_spec sampleFunc 3 [1] [0] [0] [5] [1, 2] [3, 4]
      (by decide) (by decide)⟩

end Zernipax
